import Mathlib

/-
Verification of the semantic-search-api retrieval core.

The embedding models, from the Python source:
  - app/core/models.py        : Company, CompanyResult
  - app/data/processor.py     : DataProcessor.process_data (fillna + row loop)
  - data_embedding_setup.py   : populate_vector_db, main (the index builder)
  - app/services/search.py    : SearchService.search result assembly and
                                the metadata map loaded at startup

The Chroma collection is an external capability; its operations (add,
delete, get with a limit, query with a sector filter) are modelled as a
keyed store over an association list, per the contract in the spec.
Distances and scores are rationals.
-/

namespace SemanticSearch

/-- Company record, as in app/core/models.py Company. -/
structure Company where
  company_name : String
  stock_symbol : String
  sector : String
  description : String
  combined_text : Option String
deriving Repr, DecidableEq

/-- Search result with similarity score, as in app/core/models.py CompanyResult. -/
structure CompanyResult where
  company_name : String
  stock_symbol : String
  sector : String
  description : String
  score : ℚ
deriving Repr, DecidableEq

/-- Raw CSV row after column-name normalization; a field is none when the
cell is missing (NaN in the DataFrame). -/
structure RawRecord where
  company_name : Option String
  stock_symbol : Option String
  sector : Option String
  description : Option String
deriving Repr, DecidableEq

/-- The fillna step of DataProcessor.process_data: a missing cell becomes
the empty string. -/
def fillnaField (f : Option String) : String := f.getD ""

/-- One iteration of the row loop in DataProcessor.process_data: build the
combined text from the four fields and create the Company object. -/
def processRow (r : RawRecord) : Company :=
  let name := fillnaField r.company_name
  let sym := fillnaField r.stock_symbol
  let sec := fillnaField r.sector
  let desc := fillnaField r.description
  { company_name := name
    stock_symbol := sym
    sector := sec
    description := desc
    combined_text := some (name ++ " " ++ sym ++ " " ++ sec ++ " " ++ desc) }

/-- DataProcessor.process_data: fillna, then one Company per row. -/
def process_data (rows : List RawRecord) : List Company := rows.map processRow

/-- The texts handed to the encoder by EmbeddingService.generate_embeddings
at build time: the combined_text of each company. -/
def embeddingTexts (companies : List Company) : List (Option String) :=
  companies.map (·.combined_text)

/-- Metadata persisted with each index entry by populate_vector_db: the
company name, sector and description (the stock symbol is the entry id,
not part of the metadata dict). -/
structure EntryMeta where
  company_name : String
  sector : String
  description : String
deriving Repr, DecidableEq

/-- The state of the Chroma collection: one (id, metadata) entry per stored
embedding. Vectors are irrelevant to the verified claims and are omitted. -/
abbrev IndexState := List (String × EntryMeta)

/-- The metadata dict written for a company by populate_vector_db. -/
def metaOf (c : Company) : EntryMeta :=
  { company_name := c.company_name, sector := c.sector, description := c.description }

/-- The (id, metadata) pair written for a company by populate_vector_db. -/
def entryOf (c : Company) : String × EntryMeta := (c.stock_symbol, metaOf c)

/-- Modelled from the spec: the external store writes one entry per id with
overwrite-by-id semantics (contract of upsert in the spec). -/
def upsertEntry (st : IndexState) (e : String × EntryMeta) : IndexState :=
  if st.any (fun p => p.1 = e.1) then
    st.map (fun p => if p.1 = e.1 then e else p)
  else st ++ [e]

/-- Bulk insertion, as performed by the single collection.add call. -/
def addAll (st : IndexState) (es : List (String × EntryMeta)) : IndexState :=
  es.foldl upsertEntry st

/-- Observable operations the builder performs on the collection. -/
inductive BuildOp where
  | deleteAll
  | add (es : List (String × EntryMeta))
deriving Repr, DecidableEq

/-- populate_vector_db in data_embedding_setup.py: one bulk add of every
catalog entry. Returns the new state and the operations performed. -/
def populate_vector_db (st : IndexState) (companies : List Company) :
    IndexState × List BuildOp :=
  (addAll st (companies.map entryOf), [BuildOp.add (companies.map entryOf)])

/-- main in data_embedding_setup.py: read count; if entries exist and force
is off, exit untouched; if force is on and entries exist, wipe, then
populate from the catalog. -/
def buildMain (force_reload : Bool) (st : IndexState) (companies : List Company) :
    IndexState × List BuildOp :=
  let count := st.length
  if count > 0 ∧ ¬force_reload then (st, [])
  else
    let wiped := if force_reload ∧ count > 0 then ([] : IndexState) else st
    let ops1 := if force_reload ∧ count > 0 then [BuildOp.deleteAll] else []
    let res := populate_vector_db wiped companies
    (res.1, ops1 ++ res.2)

/-- The query response handed back by collection.query for one query
embedding: the inner id list, and the inner distance list when the
distances key is present. -/
structure QueryResponse where
  ids : List String
  distances : Option (List ℚ)
deriving Repr, DecidableEq

/-- The raw score read for hit i in SearchService.search: distances[0][i]
when the distances key is present, 1.0 otherwise. -/
def rawScore (resp : QueryResponse) (i : ℕ) : ℚ :=
  match resp.distances with
  | some ds => ds.getD i 1
  | none => 1

/-- Assembly of one CompanyResult from the company found in the metadata
map and the normalized score. -/
def mkResult (c : Company) (normalized_score : ℚ) : CompanyResult :=
  { company_name := c.company_name
    stock_symbol := c.stock_symbol
    sector := c.sector
    description := c.description
    score := normalized_score }

/-- The result loop of SearchService.search: enumerate the returned ids,
look each up in the in-memory map, skip the absent ones, and attach the
score 1 - rawScore to the present ones. -/
def searchLoop (companies : String → Option Company) (resp : QueryResponse) :
    ℕ → List String → List CompanyResult
  | _, [] => []
  | i, sym :: rest =>
    match companies sym with
    | some c => mkResult c (1 - rawScore resp i) :: searchLoop companies resp (i + 1) rest
    | none => searchLoop companies resp (i + 1) rest

/-- Result assembly of SearchService.search (lines 167 to 189). -/
def searchProcess (companies : String → Option Company) (resp : QueryResponse) :
    List CompanyResult :=
  searchLoop companies resp 0 resp.ids

/-- collection.get with a limit, as used at service startup: at most limit
entries come back. -/
def fetchAll (st : IndexState) (limit : ℕ) : List (String × EntryMeta) := st.take limit

/-- The Company rebuilt from one fetched (id, metadata) pair in
SearchService loading of metadata: the id becomes the stock symbol. -/
def companyOfMeta (sym : String) (m : EntryMeta) : Company :=
  { company_name := m.company_name
    stock_symbol := sym
    sector := m.sector
    description := m.description
    combined_text := none }

/-- Python dict insertion: overwrite in place when the key exists, append
otherwise. -/
def dictInsert (d : List (String × Company)) (k : String) (v : Company) :
    List (String × Company) :=
  if d.any (fun p => p.1 = k) then d.map (fun p => if p.1 = k then (k, v) else p)
  else d ++ [(k, v)]

/-- The companies dict built from the fetched items, in order. -/
def companiesDict (items : List (String × EntryMeta)) : List (String × Company) :=
  items.foldl (fun d q => dictInsert d q.1 (companyOfMeta q.1 q.2)) []

/-- SearchService loading of company metadata: fetch with limit 10000 and
build the id to Company dict. -/
def loadCompanyMetadata (st : IndexState) : List (String × Company) :=
  companiesDict (fetchAll st 10000)

/-- Lookup in the companies dict, as companies.get does in search. -/
def lookupCompany (d : List (String × Company)) (s : String) : Option Company :=
  (d.find? (fun p => p.1 = s)).map Prod.snd

/-- A small populated index used by concrete witnesses. -/
def oldIndex : IndexState :=
  [("OLD", { company_name := "Old Corp", sector := "S", description := "d" })]

/-- A small two-company catalog used by concrete witnesses. -/
def twoCompanies : List Company :=
  [{ company_name := "A Co", stock_symbol := "A", sector := "Tech",
     description := "a", combined_text := none },
   { company_name := "B Co", stock_symbol := "B", sector := "Fin",
     description := "b", combined_text := none }]

/-- A raw row whose stock symbol cell is missing, for the counterexamples. -/
def blankIdRow : RawRecord :=
  { company_name := some "Ghost Corp"
    stock_symbol := none
    sector := some "Technology"
    description := some "A record with no ticker" }

/-- A small two-entry index used by the concrete search witnesses. -/
def searchIndex : IndexState :=
  [("A", { company_name := "A Co", sector := "Tech", description := "a" }),
   ("B", { company_name := "B Co", sector := "Fin", description := "b" })]

/-- A query response holding a drifted id ZZ between two stored ids. -/
def respDrift : QueryResponse :=
  { ids := ["B", "ZZ", "A"], distances := some [(0 : ℚ), 1, 2] }

/-- A query response that carries no distances key. -/
def respNoDist : QueryResponse :=
  { ids := ["B", "A"], distances := none }

/-- A query response as produced under the sector filter Fin. -/
def respFin : QueryResponse :=
  { ids := ["B"], distances := some [(0 : ℚ)] }

section Lemmas

/-- Inserting a fresh id appends the entry at the end. -/
lemma upsertEntry_of_fresh (st : IndexState) (e : String × EntryMeta)
    (h : ∀ p ∈ st, p.1 ≠ e.1) : upsertEntry st e = st ++ [e] := by
  unfold upsertEntry
  rw [if_neg]
  simp only [List.any_eq_true, decide_eq_true_eq, not_exists, not_and]
  exact h

/-- Bulk insertion of entries with pairwise fresh, mutually distinct ids is
plain concatenation. -/
lemma addAll_of_fresh (es : List (String × EntryMeta)) : ∀ st : IndexState,
    (((st ++ es).map Prod.fst).Nodup) → addAll st es = st ++ es := by
  induction es with
  | nil => intro st _; simp [addAll]
  | cons e rest ih =>
    intro st h
    have hfresh : ∀ p ∈ st, p.1 ≠ e.1 := by
      intro p hp hpe
      rw [List.map_append, List.nodup_append] at h
      refine h.2.2 (List.mem_map_of_mem Prod.fst hp) ?_
      rw [hpe, List.map_cons]
      exact List.mem_cons_self _ _
    have h2 : addAll (st ++ [e]) rest = (st ++ [e]) ++ rest := by
      apply ih
      simpa [List.append_assoc] using h
    calc addAll st (e :: rest)
        = addAll (upsertEntry st e) rest := by simp [addAll]
      _ = addAll (st ++ [e]) rest := by rw [upsertEntry_of_fresh st e hfresh]
      _ = (st ++ [e]) ++ rest := h2
      _ = st ++ e :: rest := by simp

/-- Every result of the search loop comes from some returned id found in
the map, carries that company, and its score is 1 - rawScore at some hit
position at or after the start index. -/
lemma mem_searchLoop (companies : String → Option Company) (resp : QueryResponse) :
    ∀ (syms : List String) (i : ℕ) (r : CompanyResult),
      r ∈ searchLoop companies resp i syms →
      ∃ s ∈ syms, ∃ c, companies s = some c ∧
        ∃ j, i ≤ j ∧ r = mkResult c (1 - rawScore resp j) := by
  intro syms
  induction syms with
  | nil => intro i r h; simp [searchLoop] at h
  | cons sym rest ih =>
    intro i r h
    cases hc : companies sym with
    | some c =>
      rw [searchLoop, hc] at h
      rcases List.mem_cons.1 h with h1 | h1
      · exact ⟨sym, List.mem_cons_self _ _, c, hc, i, le_refl i, h1⟩
      · obtain ⟨s, hs, c', hc', j, hij, hr⟩ := ih (i + 1) r h1
        exact ⟨s, List.mem_cons_of_mem _ hs, c', hc', j, by omega, hr⟩
    | none =>
      rw [searchLoop, hc] at h
      obtain ⟨s, hs, c', hc', j, hij, hr⟩ := ih (i + 1) r h
      exact ⟨s, List.mem_cons_of_mem _ hs, c', hc', j, by omega, hr⟩

/-- The stock symbols of the loop output are exactly the returned ids that
are present in the map, in order. -/
lemma searchLoop_map_symbol (companies : String → Option Company)
    (resp : QueryResponse)
    (hkey : ∀ s c, companies s = some c → c.stock_symbol = s) :
    ∀ (syms : List String) (i : ℕ),
      (searchLoop companies resp i syms).map (·.stock_symbol) =
        syms.filter (fun s => (companies s).isSome) := by
  intro syms
  induction syms with
  | nil => intro i; rfl
  | cons sym rest ih =>
    intro i
    cases hc : companies sym with
    | some c =>
      rw [searchLoop, hc, List.map_cons, ih (i + 1), List.filter_cons]
      simp [mkResult, hkey sym c hc, hc]
    | none =>
      rw [searchLoop, hc, ih (i + 1), List.filter_cons]
      simp [hc]

/-- When the distances are present and long enough, the search loop is the
filterMap over the ids zipped with their distances. -/
lemma searchLoop_zip (companies : String → Option Company) (resp : QueryResponse)
    (ds : List ℚ) (hds : resp.distances = some ds) :
    ∀ (syms : List String) (i : ℕ), i + syms.length ≤ ds.length →
      searchLoop companies resp i syms =
        (syms.zip (ds.drop i)).filterMap
          (fun p => (companies p.1).map (fun c => mkResult c (1 - p.2))) := by
  intro syms
  induction syms with
  | nil => intro i h; simp [searchLoop]
  | cons sym rest ih =>
    intro i h
    have hi : i < ds.length := by
      simp only [List.length_cons] at h
      omega
    have hraw : rawScore resp i = ds[i] := by
      rw [rawScore, hds]
      exact List.getD_eq_getElem ds 1 hi
    rw [List.drop_eq_getElem_cons hi, List.zip_cons_cons, List.filterMap_cons]
    have hrec := ih (i + 1) (by simp only [List.length_cons] at h; omega)
    cases hc : companies sym with
    | some c =>
      rw [searchLoop, hc, hraw, hrec]
      simp
    | none =>
      rw [searchLoop, hc, hrec]
      simp

/-- A filterMap whose hits agree with a total map is a sublist of that
map. -/
lemma filterMap_sublist_map {α β : Type} (f : α → Option β) (g : α → β)
    (hfg : ∀ a b, f a = some b → b = g a) :
    ∀ l : List α, (l.filterMap f).Sublist (l.map g) := by
  intro l
  induction l with
  | nil => simp
  | cons a rest ih =>
    rw [List.filterMap_cons, List.map_cons]
    cases hfa : f a with
    | none => exact ih.cons (g a)
    | some b => rw [hfg a b hfa]; exact ih.cons₂ (g a)

/-- Membership in a dict after one insertion. -/
lemma mem_dictInsert (d : List (String × Company)) (k : String) (v : Company)
    (p : String × Company) (h : p ∈ dictInsert d k v) : p ∈ d ∨ p = (k, v) := by
  unfold dictInsert at h
  split at h
  · obtain ⟨q, hq, hpq⟩ := List.mem_map.1 h
    by_cases hk : q.1 = k
    · right; rw [if_pos hk] at hpq; exact hpq.symm
    · left; rw [if_neg hk] at hpq; exact hpq ▸ hq
  · rcases List.mem_append.1 h with h1 | h1
    · left; exact h1
    · right; simpa using h1

/-- An invariant preserved by folding dict insertions over fetched items. -/
lemma mem_dictFold (P : String × Company → Prop) :
    ∀ (items : List (String × EntryMeta)) (d0 : List (String × Company)),
      (∀ p ∈ d0, P p) →
      (∀ q ∈ items, P (q.1, companyOfMeta q.1 q.2)) →
      ∀ p ∈ items.foldl (fun d q => dictInsert d q.1 (companyOfMeta q.1 q.2)) d0,
        P p := by
  intro items
  induction items with
  | nil => intro d0 h0 _ p hp; exact h0 p hp
  | cons q rest ih =>
    intro d0 h0 hstep p hp
    simp only [List.foldl_cons] at hp
    refine ih (dictInsert d0 q.1 (companyOfMeta q.1 q.2)) ?_
      (fun q' hq' => hstep q' (List.mem_cons_of_mem _ hq')) p hp
    intro p' hp'
    rcases mem_dictInsert _ _ _ _ hp' with h | h
    · exact h0 p' h
    · rw [h]; exact hstep q (List.mem_cons_self _ _)

/-- Every dict entry was built from a fetched item with the same key. -/
lemma mem_companiesDict (items : List (String × EntryMeta))
    (p : String × Company) (hp : p ∈ companiesDict items) :
    ∃ m, (p.1, m) ∈ items ∧ p.2 = companyOfMeta p.1 m := by
  refine mem_dictFold
    (fun p => ∃ m, (p.1, m) ∈ items ∧ p.2 = companyOfMeta p.1 m)
    items [] (by simp) ?_ p hp
  intro q hq
  exact ⟨q.2, hq, rfl⟩

/-- A successful dict lookup returns a stored pair with the looked-up
key. -/
lemma lookupCompany_spec (d : List (String × Company)) (s : String) (c : Company)
    (h : lookupCompany d s = some c) : (s, c) ∈ d := by
  unfold lookupCompany at h
  cases hf : d.find? (fun p => decide (p.1 = s)) with
  | none => rw [hf] at h; cases h
  | some p =>
    rw [hf] at h
    have hp : p.1 = s := by simpa using List.find?_some hf
    have hm := List.mem_of_find?_eq_some hf
    have hc : p.2 = c := by simpa using h
    have : (s, c) = p := by
      cases p
      simp_all
    rw [this]
    exact hm

/-- A company found in the startup metadata map comes from an index entry
with the looked-up id, restricted to the first 10000 fetched entries. -/
lemma lookup_load_spec (st : IndexState) (s : String) (c : Company)
    (h : lookupCompany (loadCompanyMetadata st) s = some c) :
    ∃ m, (s, m) ∈ st ∧ c = companyOfMeta s m := by
  have hmem := lookupCompany_spec _ _ _ h
  obtain ⟨m, hm, hc⟩ := mem_companiesDict _ _ hmem
  exact ⟨m, List.take_subset 10000 st hm, hc⟩

/-- The company stored in the metadata map under an id carries that id as
its stock symbol. -/
lemma lookup_load_symbol (st : IndexState) (s : String) (c : Company)
    (h : lookupCompany (loadCompanyMetadata st) s = some c) :
    c.stock_symbol = s := by
  obtain ⟨m, _, hc⟩ := lookup_load_spec st s c h
  rw [hc]
  rfl

/-- In an index with distinct ids an id determines its metadata. -/
lemma key_unique (st : IndexState) (hnd : (st.map Prod.fst).Nodup)
    (s : String) (m m' : EntryMeta)
    (h : (s, m) ∈ st) (h' : (s, m') ∈ st) : m = m' := by
  induction st with
  | nil => cases h
  | cons e rest ih =>
    rw [List.map_cons, List.nodup_cons] at hnd
    rcases List.mem_cons.1 h with he | hr
    · rcases List.mem_cons.1 h' with he' | hr'
      · have hmm : (s, m) = ((s, m') : String × EntryMeta) := he.trans he'.symm
        simpa using hmm
      · exfalso
        apply hnd.1
        rw [← he]
        simpa using List.mem_map_of_mem Prod.fst hr'
    · rcases List.mem_cons.1 h' with he' | hr'
      · exfalso
        apply hnd.1
        rw [← he']
        simpa using List.mem_map_of_mem Prod.fst hr
      · exact ih hnd.2 hr hr'

/-- One dict insertion grows the dict by at most one entry. -/
lemma dictInsert_length (d : List (String × Company)) (k : String) (v : Company) :
    (dictInsert d k v).length ≤ d.length + 1 := by
  unfold dictInsert
  split
  · simp
  · simp

/-- Folding dict insertions grows the dict by at most one entry per item. -/
lemma dictFold_length :
    ∀ (items : List (String × EntryMeta)) (d0 : List (String × Company)),
      (items.foldl (fun d q => dictInsert d q.1 (companyOfMeta q.1 q.2)) d0).length ≤
        d0.length + items.length := by
  intro items
  induction items with
  | nil => intro d0; simp
  | cons q rest ih =>
    intro d0
    simp only [List.foldl_cons, List.length_cons]
    calc (rest.foldl (fun d q => dictInsert d q.1 (companyOfMeta q.1 q.2))
            (dictInsert d0 q.1 (companyOfMeta q.1 q.2))).length
        ≤ (dictInsert d0 q.1 (companyOfMeta q.1 q.2)).length + rest.length := ih _
      _ ≤ (d0.length + 1) + rest.length := by
          have := dictInsert_length d0 q.1 (companyOfMeta q.1 q.2)
          omega
      _ = d0.length + (rest.length + 1) := by omega

end Lemmas

section Theorems

/-- C1 counterexample: a catalog produced from a raw source containing a
row with a missing stock symbol does contain a Company whose stock_symbol
is the empty string, so the claimed exclusion does not happen. -/
theorem process_data_blank_id_counterexample :
    ∃ c ∈ process_data [blankIdRow], c.stock_symbol = "" := by
  refine ⟨processRow blankIdRow, ?_, rfl⟩
  simp [process_data]

/-- C1 (amended): process_data excludes nothing. Every input row, a row
with a blank or missing stock symbol included, yields exactly one Company;
a missing or blank symbol cell becomes the empty string and the record is
kept. -/
theorem process_data_keeps_blank_ids (rows : List RawRecord) (r : RawRecord)
    (hr : r ∈ rows) (hblank : fillnaField r.stock_symbol = "") :
    (process_data rows).length = rows.length ∧
    processRow r ∈ process_data rows ∧ (processRow r).stock_symbol = "" := by
  exact ⟨by simp [process_data], List.mem_map_of_mem processRow hr, hblank⟩

/-- C1 amended witness at a concrete one-row source. -/
theorem process_data_keeps_blank_ids_witness :
    (process_data [blankIdRow]).length = [blankIdRow].length ∧
    processRow blankIdRow ∈ process_data [blankIdRow] ∧
    (processRow blankIdRow).stock_symbol = "" :=
  process_data_keeps_blank_ids [blankIdRow] blankIdRow (by decide) (by decide)

/-- C6: for every company in a processed catalog, the text handed to the
encoder at build time (combined_text) is exactly the four fields
company_name, stock_symbol, sector, description joined by single spaces in
that fixed order. -/
theorem combined_text_is_four_fields_space_joined (rows : List RawRecord)
    (c : Company) (h : c ∈ process_data rows) :
    c.combined_text = some (c.company_name ++ " " ++ c.stock_symbol ++ " " ++
      c.sector ++ " " ++ c.description) ∧
    embeddingTexts (process_data rows) = (process_data rows).map (·.combined_text) := by
  refine ⟨?_, rfl⟩
  obtain ⟨r, _, rfl⟩ := List.mem_map.1 h
  rfl

/-- C6 witness at a concrete row. -/
theorem combined_text_witness :
    (processRow blankIdRow).combined_text =
      some ((processRow blankIdRow).company_name ++ " " ++
        (processRow blankIdRow).stock_symbol ++ " " ++
        (processRow blankIdRow).sector ++ " " ++
        (processRow blankIdRow).description) ∧
    embeddingTexts (process_data [blankIdRow]) =
      (process_data [blankIdRow]).map (·.combined_text) :=
  combined_text_is_four_fields_space_joined [blankIdRow] (processRow blankIdRow)
    (by decide)

/-- C5: on an index that already holds entries, running the builder
without force performs no delete and no add and returns the state
untouched, so the entry count is unchanged. -/
theorem builder_without_force_is_noop (st : IndexState) (companies : List Company)
    (hpos : 0 < st.length) :
    buildMain false st companies = (st, []) ∧
    (buildMain false st companies).1.length = st.length := by
  have h : buildMain false st companies = (st, []) := by
    unfold buildMain
    rw [if_pos ⟨hpos, by simp⟩]
  exact ⟨h, by rw [h]⟩

/-- C5 witness on a concrete populated index. -/
theorem builder_without_force_is_noop_witness :
    buildMain false oldIndex twoCompanies = (oldIndex, []) ∧
    (buildMain false oldIndex twoCompanies).1.length = oldIndex.length :=
  builder_without_force_is_noop oldIndex twoCompanies (by decide)

/-- C2: on a populated index, the builder run with force first clears all
entries, then adds the whole catalog in one bulk call; when the catalog
ids are distinct (the catalog invariant), the final state is exactly the
catalog entries, so the final count equals the catalog size and every
remaining id comes from the catalog (no stale ids). -/
theorem builder_force_wipes_then_adds (st : IndexState) (companies : List Company)
    (hpos : 0 < st.length)
    (hnd : (companies.map (·.stock_symbol)).Nodup) :
    buildMain true st companies =
      (companies.map entryOf,
        [BuildOp.deleteAll, BuildOp.add (companies.map entryOf)]) ∧
    (buildMain true st companies).1.length = companies.length ∧
    ∀ p ∈ (buildMain true st companies).1, p.1 ∈ companies.map (·.stock_symbol) := by
  have hadd : addAll [] (companies.map entryOf) = companies.map entryOf := by
    have h := addAll_of_fresh (companies.map entryOf) []
    simp only [List.nil_append] at h
    apply h
    simpa [List.map_map, Function.comp_def, entryOf] using hnd
  have hmain : buildMain true st companies =
      (companies.map entryOf,
        [BuildOp.deleteAll, BuildOp.add (companies.map entryOf)]) := by
    simp [buildMain, populate_vector_db, hpos, hadd]
  refine ⟨hmain, by rw [hmain]; simp, ?_⟩
  rw [hmain]
  intro p hp
  obtain ⟨c, hc, rfl⟩ := List.mem_map.1 hp
  exact List.mem_map_of_mem _ hc

/-- C2 witness on a concrete populated index and two-company catalog. -/
theorem builder_force_wipes_then_adds_witness :
    (buildMain true oldIndex twoCompanies).1.length = twoCompanies.length :=
  (builder_force_wipes_then_adds oldIndex twoCompanies (by decide) (by decide)).2.1

/-- C3: when the vector index returns distances alongside the ids, the
search output is the filterMap of the (id, distance) pairs; every result
assembled for a hit whose id is in the metadata map carries the score
1 - distance. -/
theorem score_is_one_minus_distance (companies : String → Option Company)
    (resp : QueryResponse) (ds : List ℚ)
    (hds : resp.distances = some ds) (hlen : resp.ids.length ≤ ds.length) :
    searchProcess companies resp =
      (resp.ids.zip ds).filterMap
        (fun p => (companies p.1).map (fun c => mkResult c (1 - p.2))) := by
  unfold searchProcess
  rw [searchLoop_zip companies resp ds hds resp.ids 0 (by omega), List.drop_zero]

/-- C3 witness on a concrete index and response. -/
theorem score_is_one_minus_distance_witness :
    searchProcess (lookupCompany (loadCompanyMetadata searchIndex)) respDrift =
      (respDrift.ids.zip [(0 : ℚ), 1, 2]).filterMap
        (fun p => (lookupCompany (loadCompanyMetadata searchIndex) p.1).map
          (fun c => mkResult c (1 - p.2))) :=
  score_is_one_minus_distance _ respDrift [(0 : ℚ), 1, 2] rfl (by decide)

/-- C4: a hit whose id is absent from the metadata map is skipped silently
and processing continues with the remaining hits, while every hit whose id
is present yields a result: the output symbols are exactly the returned
ids that are present, kept in the returned order. -/
theorem drifted_ids_skipped_silently (companies : String → Option Company)
    (resp : QueryResponse)
    (hkey : ∀ s c, companies s = some c → c.stock_symbol = s) :
    (searchProcess companies resp).map (·.stock_symbol) =
      resp.ids.filter (fun s => (companies s).isSome) :=
  searchLoop_map_symbol companies resp hkey resp.ids 0

/-- C4 witness: a response containing the drifted id ZZ. -/
theorem drifted_ids_skipped_silently_witness :
    (searchProcess (lookupCompany (loadCompanyMetadata searchIndex)) respDrift).map
        (·.stock_symbol) =
      respDrift.ids.filter
        (fun s => (lookupCompany (loadCompanyMetadata searchIndex) s).isSome) :=
  drifted_ids_skipped_silently _ respDrift (lookup_load_symbol searchIndex)

/-- C7: search preserves the index result order, so when the returned
distances are non-decreasing the scores along the output are
non-increasing. -/
theorem scores_non_increasing (companies : String → Option Company)
    (resp : QueryResponse) (ds : List ℚ)
    (hds : resp.distances = some ds) (hlen : resp.ids.length = ds.length)
    (hsorted : ds.Pairwise (· ≤ ·)) :
    ((searchProcess companies resp).map (·.score)).Pairwise (· ≥ ·) := by
  unfold searchProcess
  rw [searchLoop_zip companies resp ds hds resp.ids 0 (by omega), List.drop_zero,
    List.map_filterMap]
  have hsub := filterMap_sublist_map
    (fun p : String × ℚ => Option.map (fun r : CompanyResult => r.score)
      ((companies p.1).map (fun c => mkResult c (1 - p.2))))
    (fun p : String × ℚ => 1 - p.2)
    (fun p b hb => by
      cases hc : companies p.1 with
      | none => simp [hc] at hb
      | some c => simpa [hc, mkResult] using hb.symm)
    (resp.ids.zip ds)
  have h1 : (resp.ids.zip ds).map Prod.snd = ds :=
    List.map_snd_zip resp.ids ds (by omega)
  have hmap : (resp.ids.zip ds).map (fun p : String × ℚ => 1 - p.2) =
      ds.map (fun d => 1 - d) := by
    calc (resp.ids.zip ds).map (fun p : String × ℚ => 1 - p.2)
        = ((resp.ids.zip ds).map Prod.snd).map (fun d => 1 - d) := by
          rw [List.map_map]
          rfl
      _ = ds.map (fun d => 1 - d) := by rw [h1]
  have hpw : ((resp.ids.zip ds).map (fun p : String × ℚ => 1 - p.2)).Pairwise
      (· ≥ ·) := by
    rw [hmap]
    exact hsorted.map _ (fun a b hab => by
      simp only [ge_iff_le]
      linarith)
  exact List.Pairwise.sublist hsub hpw

/-- C7 witness on a concrete sorted response. -/
theorem scores_non_increasing_witness :
    ((searchProcess (lookupCompany (loadCompanyMetadata searchIndex))
        respDrift).map (·.score)).Pairwise (· ≥ ·) :=
  scores_non_increasing _ respDrift [(0 : ℚ), 1, 2] rfl rfl (by decide)

/-- C8: the vector index restricts a filtered query to entries stored with
the requested sector; every assembled result then carries exactly that
sector, and when no entry matches the filter the result list is empty. -/
theorem sector_filter_exact (st : IndexState) (v : String) (resp : QueryResponse)
    (hnd : (st.map Prod.fst).Nodup)
    (hfilter : ∀ s ∈ resp.ids, ∃ e ∈ st, e.1 = s ∧ e.2.sector = v) :
    (∀ r ∈ searchProcess (lookupCompany (loadCompanyMetadata st)) resp,
      r.sector = v) ∧
    ((∀ e ∈ st, e.2.sector ≠ v) →
      searchProcess (lookupCompany (loadCompanyMetadata st)) resp = []) := by
  constructor
  · intro r hr
    obtain ⟨s, hs, c, hc, j, _, hrr⟩ :=
      mem_searchLoop (lookupCompany (loadCompanyMetadata st)) resp resp.ids 0 r hr
    obtain ⟨m, hmst, hcm⟩ := lookup_load_spec st s c hc
    obtain ⟨e, hest, he1, he2⟩ := hfilter s hs
    have hement : (s, e.2) ∈ st := by
      rw [← he1]
      exact hest
    have hm : m = e.2 := key_unique st hnd s m e.2 hmst hement
    rw [hrr, hcm, hm]
    exact he2
  · intro hnone
    have hids : resp.ids = [] := by
      cases hids : resp.ids with
      | nil => rfl
      | cons a as =>
        exfalso
        obtain ⟨e, hest, _, he2⟩ :=
          hfilter a (by rw [hids]; exact List.mem_cons_self a as)
        exact hnone e hest he2
    unfold searchProcess
    rw [hids]
    rfl

/-- C8 witness: the one result returned under the filter value Fin carries
the sector Fin. -/
theorem sector_filter_exact_witness :
    (mkResult (companyOfMeta "B"
        { company_name := "B Co", sector := "Fin", description := "b" })
      (1 - rawScore respFin 0)).sector = "Fin" :=
  (sector_filter_exact searchIndex "Fin" respFin (by decide) (by decide)).1 _
    (List.mem_cons_self _ _)

/-- C9: when the query response carries no distances key the raw distance
defaults to 1.0, so every assembled result gets score 1 - 1.0 = 0. -/
theorem missing_distances_give_zero_scores (companies : String → Option Company)
    (resp : QueryResponse) (hds : resp.distances = none) :
    ∀ r ∈ searchProcess companies resp, r.score = 0 := by
  intro r hr
  obtain ⟨s, _, c, _, j, _, hrr⟩ := mem_searchLoop companies resp resp.ids 0 r hr
  rw [hrr]
  show 1 - rawScore resp j = 0
  simp [rawScore, hds]

/-- C9 witness: the first result assembled under a response with no
distances carries score 1 - 1.0 = 0. -/
theorem missing_distances_give_zero_scores_witness :
    (mkResult (companyOfMeta "B"
        { company_name := "B Co", sector := "Fin", description := "b" })
      (1 - rawScore respNoDist 0)).score = 0 :=
  missing_distances_give_zero_scores
    (lookupCompany (loadCompanyMetadata searchIndex)) respNoDist rfl _
    (List.mem_cons_self _ _)

/-- C10: the metadata map loaded at startup holds at most 10000 entries
(the fetch uses a fixed limit of 10000), and an id absent from the loaded
map, in particular any id beyond the first 10000 fetched entries, never
appears among the search results. -/
theorem metadata_map_capped_at_10000 (st : IndexState) :
    (loadCompanyMetadata st).length ≤ 10000 ∧
    ∀ (resp : QueryResponse) (s : String),
      lookupCompany (loadCompanyMetadata st) s = none →
      s ∉ (searchProcess (lookupCompany (loadCompanyMetadata st)) resp).map
        (·.stock_symbol) := by
  constructor
  · have h1 := dictFold_length (fetchAll st 10000) []
    simp only [List.length_nil, Nat.zero_add] at h1
    refine le_trans h1 ?_
    rw [fetchAll, List.length_take]
    exact min_le_left _ _
  · intro resp s hnone hmem
    obtain ⟨r, hr, hrs⟩ := List.mem_map.1 hmem
    obtain ⟨s2, _, c, hc, j, _, hrr⟩ :=
      mem_searchLoop (lookupCompany (loadCompanyMetadata st)) resp resp.ids 0 r hr
    have hsym : c.stock_symbol = s2 := lookup_load_symbol st s2 c hc
    rw [hrr] at hrs
    have hs2 : s2 = s := by
      rw [← hsym]
      exact hrs.symm ▸ rfl
    rw [hs2] at hc
    rw [hc] at hnone
    cases hnone

/-- C10 witness: the loaded map bound and the dropped id ZZ. -/
theorem metadata_map_capped_at_10000_witness :
    (loadCompanyMetadata searchIndex).length ≤ 10000 ∧
    "ZZ" ∉ (searchProcess (lookupCompany (loadCompanyMetadata searchIndex))
      respDrift).map (·.stock_symbol) :=
  ⟨(metadata_map_capped_at_10000 searchIndex).1,
   (metadata_map_capped_at_10000 searchIndex).2 respDrift "ZZ" (by decide)⟩

end Theorems

end SemanticSearch
